import Mathlib

/-!
Shallow embedding of the Tiny Shreds UDP client (`src/main.rs`):
fragment reassembly (`FragmentReassembler::process_packet`, `cleanup_old`),
instruction scanning (`process_entries`), and the main-loop stats window.

Rust `HashMap` values are modelled as association lists with first-match
lookup; `insert` replaces the binding of an existing key in place and
appends a fresh key, so maps built through `alInsert` have distinct keys.
`Instant` timestamps are modelled as natural numbers counting seconds;
`elapsed` is truncated subtraction.
-/

namespace UdpShreds

/-- Lookup in the association-list model of `HashMap`: first matching key. -/
def alGet {α : Type} (k : Nat) : List (Nat × α) → Option α
  | [] => none
  | p :: rest => if p.1 = k then some p.2 else alGet k rest

/-- Insertion in the association-list model of `HashMap`: replace the first
binding of `k` if present, otherwise append a new binding. -/
def alInsert {α : Type} (k : Nat) (v : α) : List (Nat × α) → List (Nat × α)
  | [] => [(k, v)]
  | p :: rest => if p.1 = k then (k, v) :: rest else p :: alInsert k v rest

/-- Removal in the association-list model of `HashMap.remove`. -/
def alRemove {α : Type} (k : Nat) (l : List (Nat × α)) : List (Nat × α) :=
  l.filter (fun p => p.1 ≠ k)

/-- Fragment header size (`HEADER_SIZE` in the source). -/
def HEADER_SIZE : Nat := 16

/-- Magic bytes for fragmented messages: ASCII "SHRD" (`MAGIC` in the source). -/
def MAGIC : List Nat := [83, 72, 82, 68]

/-- CREATE instruction discriminator (`CREATE_DISC` in the source). -/
def CREATE_DISC : List Nat := [24, 30, 200, 40, 5, 28, 7, 119]

/-- Little-endian decoding of two bytes into a `u16` value. -/
def leU16 (b0 b1 : Nat) : Nat := b0 + 256 * b1

/-- Little-endian decoding of four bytes into a `u32` value. -/
def leU32 (b0 b1 b2 b3 : Nat) : Nat :=
  b0 + 256 * b1 + 65536 * b2 + 16777216 * b3

/-- Per-message reassembly state (`struct FragmentBuffer`). -/
structure FragmentBuffer where
  total_fragments : Nat
  total_size : Nat
  received : List (Nat × List Nat)
  created_at : Nat
  deriving DecidableEq, Repr

/-- The reassembler's state (`struct FragmentReassembler`). -/
structure FragmentReassembler where
  buffers : List (Nat × FragmentBuffer)
  deriving DecidableEq, Repr

/-- The completion-time concatenation loop of `process_packet`:
`for i in 0..total_fragments { if let Some(frag) = received.get(&i) { complete.extend(frag) } }`. -/
def assemble (received : List (Nat × List Nat)) (total : Nat) : List Nat :=
  (List.range total).foldl
    (fun acc i =>
      match alGet i received with
      | some frag => acc ++ frag
      | none => acc)
    []

/-- Embedding of `FragmentReassembler::process_packet`. `now` is the current
time, used for `Instant::now()` when a buffer is created. Returns the updated
reassembler state and the optional complete message. -/
def process_packet (r : FragmentReassembler) (now : Nat) (data : List Nat) :
    FragmentReassembler × Option (List Nat) :=
  if HEADER_SIZE ≤ data.length ∧ data.take 4 = MAGIC then
    let message_id := leU32 (data.getD 4 0) (data.getD 5 0) (data.getD 6 0) (data.getD 7 0)
    let fragment_index := leU16 (data.getD 8 0) (data.getD 9 0)
    let total_fragments := leU16 (data.getD 10 0) (data.getD 11 0)
    let total_size := leU32 (data.getD 12 0) (data.getD 13 0) (data.getD 14 0) (data.getD 15 0)
    let fragment_data := data.drop HEADER_SIZE
    let b :=
      match alGet message_id r.buffers with
      | some b => b
      | none =>
          { total_fragments := total_fragments
            total_size := total_size
            received := []
            created_at := now }
    let received' := alInsert fragment_index fragment_data b.received
    if received'.length = total_fragments then
      (⟨alRemove message_id r.buffers⟩, some (assemble received' total_fragments))
    else
      (⟨alInsert message_id { b with received := received' } r.buffers⟩, none)
  else
    (r, some data)

/-- Embedding of `FragmentReassembler::cleanup_old`: retain buffers whose age
(`created_at.elapsed()`) is strictly below the 10-second time-to-live. -/
def cleanup_old (r : FragmentReassembler) (now : Nat) : FragmentReassembler :=
  ⟨r.buffers.filter (fun p => now - p.2.created_at < 10)⟩

/-- Feed a sequence of packets through `process_packet`, collecting each
call's optional output. -/
def processList (r : FragmentReassembler) (now : Nat) :
    List (List Nat) → FragmentReassembler × List (Option (List Nat))
  | [] => (r, [])
  | p :: ps =>
    let step := process_packet r now p
    let rest := processList step.1 now ps
    (rest.1, step.2 :: rest.2)

/-- Little-endian encoding of a `u16` field of the fragment header. -/
def encodeU16 (n : Nat) : List Nat := [n % 256, n / 256 % 256]

/-- Little-endian encoding of a `u32` field of the fragment header. -/
def encodeU32 (n : Nat) : List Nat :=
  [n % 256, n / 256 % 256, n / 65536 % 256, n / 16777216 % 256]

/-- The 16-byte fragment header of the wire format. -/
def mkHeader (message_id fragment_index total_fragments total_size : Nat) : List Nat :=
  MAGIC ++ encodeU32 message_id ++ encodeU16 fragment_index ++
    encodeU16 total_fragments ++ encodeU32 total_size

/-- A correctly framed fragment packet: header followed by the fragment bytes. -/
def mkPacket (message_id fragment_index total_fragments total_size : Nat)
    (frag : List Nat) : List Nat :=
  mkHeader message_id fragment_index total_fragments total_size ++ frag

section AssocListLemmas

variable {α : Type}

theorem alGet_insert_self (k : Nat) (v : α) (l : List (Nat × α)) :
    alGet k (alInsert k v l) = some v := by
  induction l with
  | nil => simp [alInsert, alGet]
  | cons p rest ih =>
    by_cases h : p.1 = k
    · simp [alInsert, h, alGet]
    · simp [alInsert, h, alGet, ih]

theorem alGet_insert_ne (k k' : Nat) (v : α) (l : List (Nat × α)) (h : k' ≠ k) :
    alGet k' (alInsert k v l) = alGet k' l := by
  have hk : ¬(k = k') := fun hh => h hh.symm
  induction l with
  | nil => simp [alInsert, alGet, hk]
  | cons p rest ih =>
    by_cases hp : p.1 = k
    · have hp' : ¬(p.1 = k') := by rw [hp]; exact hk
      simp [alInsert, hp, alGet, hk, hp']
    · simp [alInsert, hp, alGet, ih]

theorem length_alInsert_of_get_none (k : Nat) (v : α) (l : List (Nat × α))
    (h : alGet k l = none) : (alInsert k v l).length = l.length + 1 := by
  induction l with
  | nil => simp [alInsert]
  | cons p rest ih =>
    by_cases hp : p.1 = k
    · simp [alGet, hp] at h
    · simp [alGet, hp] at h
      simp [alInsert, hp, ih h]

theorem length_alInsert_of_get_some (k : Nat) (v w : α) (l : List (Nat × α))
    (h : alGet k l = some w) : (alInsert k v l).length = l.length := by
  induction l with
  | nil => simp [alGet] at h
  | cons p rest ih =>
    by_cases hp : p.1 = k
    · simp [alInsert, hp]
    · simp [alGet, hp] at h
      simp [alInsert, hp, ih h]

theorem alInsert_of_get_self (k : Nat) (v : α) (l : List (Nat × α))
    (h : alGet k l = some v) : alInsert k v l = l := by
  induction l with
  | nil => simp [alGet] at h
  | cons p rest ih =>
    by_cases hp : p.1 = k
    · have hv : p.2 = v := by simpa [alGet, hp] using h
      have e : alInsert k v (p :: rest) = (k, v) :: rest := by simp [alInsert, hp]
      rw [e, ← hp, ← hv]
    · have hrest : alGet k rest = some v := by simpa [alGet, hp] using h
      have e : alInsert k v (p :: rest) = p :: alInsert k v rest := by simp [alInsert, hp]
      rw [e, ih hrest]

theorem alGet_remove_self (k : Nat) (l : List (Nat × α)) :
    alGet k (alRemove k l) = none := by
  induction l with
  | nil => simp [alRemove, alGet]
  | cons p rest ih =>
    by_cases hp : p.1 = k
    · simpa [alRemove, hp] using ih
    · simpa [alRemove, alGet, hp] using ih

theorem alGet_eq_none_iff (k : Nat) (l : List (Nat × α)) :
    alGet k l = none ↔ k ∉ l.map Prod.fst := by
  induction l with
  | nil => simp [alGet]
  | cons p rest ih =>
    by_cases hp : p.1 = k
    · rw [List.map_cons, List.mem_cons]
      constructor
      · intro hnone
        simp [alGet, hp] at hnone
      · intro hmem
        exact absurd (Or.inl hp.symm) hmem
    · have hstep : alGet k (p :: rest) = alGet k rest := by simp [alGet, hp]
      rw [hstep, List.map_cons, List.mem_cons, ih]
      constructor
      · intro hnk hmem
        rcases hmem with hmem | hmem
        · exact hp hmem.symm
        · exact hnk hmem
      · intro hmem hmem'
        exact hmem (Or.inr hmem')

theorem mem_keys_alInsert (k a : Nat) (v : α) (l : List (Nat × α))
    (h : a ∈ (alInsert k v l).map Prod.fst) : a = k ∨ a ∈ l.map Prod.fst := by
  induction l with
  | nil =>
    left
    simpa [alInsert] using h
  | cons p rest ih =>
    by_cases hp : p.1 = k
    · have e : alInsert k v (p :: rest) = (k, v) :: rest := by simp [alInsert, hp]
      rw [e, List.map_cons, List.mem_cons] at h
      rcases h with h | h
      · exact Or.inl h
      · exact Or.inr (by rw [List.map_cons, List.mem_cons]; exact Or.inr h)
    · have e : alInsert k v (p :: rest) = p :: alInsert k v rest := by simp [alInsert, hp]
      rw [e, List.map_cons, List.mem_cons] at h
      rcases h with h | h
      · exact Or.inr (by rw [List.map_cons, List.mem_cons]; exact Or.inl h)
      · rcases ih h with h' | h'
        · exact Or.inl h'
        · exact Or.inr (by rw [List.map_cons, List.mem_cons]; exact Or.inr h')

theorem nodup_keys_alInsert (k : Nat) (v : α) (l : List (Nat × α))
    (h : (l.map Prod.fst).Nodup) : ((alInsert k v l).map Prod.fst).Nodup := by
  induction l with
  | nil => simp [alInsert]
  | cons p rest ih =>
    rw [List.map_cons, List.nodup_cons] at h
    by_cases hp : p.1 = k
    · have e : alInsert k v (p :: rest) = (k, v) :: rest := by simp [alInsert, hp]
      rw [e, List.map_cons, List.nodup_cons]
      exact ⟨hp ▸ h.1, h.2⟩
    · have e : alInsert k v (p :: rest) = p :: alInsert k v rest := by simp [alInsert, hp]
      rw [e, List.map_cons, List.nodup_cons]
      refine ⟨fun hmem => ?_, ih h.2⟩
      rcases mem_keys_alInsert k p.1 v rest hmem with h' | h'
      · exact hp h'
      · exact h.1 h'

theorem nodup_keys_alRemove (k : Nat) (l : List (Nat × α))
    (h : (l.map Prod.fst).Nodup) : ((alRemove k l).map Prod.fst).Nodup := by
  have hsub : ((alRemove k l).map Prod.fst).Sublist (l.map Prod.fst) :=
    (List.filter_sublist l).map Prod.fst
  exact List.Nodup.sublist hsub h

end AssocListLemmas

section PacketLemmas

theorem mkPacket_length (m i t s : Nat) (f : List Nat) :
    (mkPacket m i t s f).length = f.length + 16 := by
  simp [mkPacket, mkHeader, MAGIC, encodeU32, encodeU16]

theorem mkPacket_cond (m i t s : Nat) (f : List Nat) :
    HEADER_SIZE ≤ (mkPacket m i t s f).length ∧ (mkPacket m i t s f).take 4 = MAGIC := by
  constructor
  · rw [mkPacket_length, HEADER_SIZE]
    omega
  · rfl

theorem mkPacket_message_id (m i t s : Nat) (f : List Nat) (hm : m < 4294967296) :
    leU32 ((mkPacket m i t s f).getD 4 0) ((mkPacket m i t s f).getD 5 0)
      ((mkPacket m i t s f).getD 6 0) ((mkPacket m i t s f).getD 7 0) = m := by
  show leU32 (m % 256) (m / 256 % 256) (m / 65536 % 256) (m / 16777216 % 256) = m
  unfold leU32
  omega

theorem mkPacket_fragment_index (m i t s : Nat) (f : List Nat) (hi : i < 65536) :
    leU16 ((mkPacket m i t s f).getD 8 0) ((mkPacket m i t s f).getD 9 0) = i := by
  show leU16 (i % 256) (i / 256 % 256) = i
  unfold leU16
  omega

theorem mkPacket_total_fragments (m i t s : Nat) (f : List Nat) (ht : t < 65536) :
    leU16 ((mkPacket m i t s f).getD 10 0) ((mkPacket m i t s f).getD 11 0) = t := by
  show leU16 (t % 256) (t / 256 % 256) = t
  unfold leU16
  omega

theorem mkPacket_total_size (m i t s : Nat) (f : List Nat) (hs : s < 4294967296) :
    leU32 ((mkPacket m i t s f).getD 12 0) ((mkPacket m i t s f).getD 13 0)
      ((mkPacket m i t s f).getD 14 0) ((mkPacket m i t s f).getD 15 0) = s := by
  show leU32 (s % 256) (s / 256 % 256) (s / 65536 % 256) (s / 16777216 % 256) = s
  unfold leU32
  omega

theorem mkPacket_drop (m i t s : Nat) (f : List Nat) :
    (mkPacket m i t s f).drop HEADER_SIZE = f := rfl

/-- Evaluation of `process_packet` on a well-formed fragment packet, with the
header fields recovered from their little-endian encoding. -/
theorem process_packet_mkPacket (r : FragmentReassembler) (now m i t s : Nat) (f : List Nat)
    (hm : m < 4294967296) (hi : i < 65536) (ht : t < 65536) (hs : s < 4294967296) :
    process_packet r now (mkPacket m i t s f) =
      (let b :=
        match alGet m r.buffers with
        | some b => b
        | none => ⟨t, s, [], now⟩
       let received' := alInsert i f b.received
       if received'.length = t then
         (⟨alRemove m r.buffers⟩, some (assemble received' t))
       else
         (⟨alInsert m { b with received := received' } r.buffers⟩, none)) := by
  rw [process_packet, if_pos (mkPacket_cond m i t s f)]
  rw [mkPacket_message_id m i t s f hm, mkPacket_fragment_index m i t s f hi,
    mkPacket_total_fragments m i t s f ht, mkPacket_total_size m i t s f hs,
    mkPacket_drop m i t s f]

end PacketLemmas

section AssembleLemmas

theorem foldl_assemble_aux (M : List (Nat × List Nat)) (xs : List Nat) :
    ∀ acc : List Nat,
      xs.foldl
          (fun acc i =>
            match alGet i M with
            | some frag => acc ++ frag
            | none => acc)
          acc
        = acc ++ (xs.filterMap (fun i => alGet i M)).flatten := by
  induction xs with
  | nil => intro acc; simp
  | cons x xs ih =>
    intro acc
    cases h : alGet x M with
    | none => simp [List.foldl_cons, h, List.filterMap_cons, ih]
    | some frag =>
      simp only [List.foldl_cons, h, List.filterMap_cons]
      rw [ih (acc ++ frag)]
      simp [List.append_assoc]

/-- The completion loop of `process_packet` concatenates, in index order, the
fragments that are present and silently skips any missing index. -/
theorem assemble_eq_flatten_filterMap (M : List (Nat × List Nat)) (total : Nat) :
    assemble M total = ((List.range total).filterMap (fun i => alGet i M)).flatten := by
  unfold assemble
  simpa using foldl_assemble_aux M (List.range total) []

theorem filterMap_eq_map_of_forall_some {α β : Type} (f : α → Option β) (g : α → β) :
    ∀ l : List α, (∀ x ∈ l, f x = some (g x)) → l.filterMap f = l.map g := by
  intro l
  induction l with
  | nil => intro _; simp
  | cons x xs ih =>
    intro h
    rw [List.filterMap_cons, h x (by simp), List.map_cons, ih (fun y hy => h y (by simp [hy]))]

theorem range_map_getD {β : Type} (l : List β) (d : β) :
    (List.range l.length).map (fun i => l.getD i d) = l := by
  induction l with
  | nil => simp
  | cons a t ih =>
    rw [List.length_cons, List.range_succ_eq_map, List.map_cons, List.map_map]
    simp only [Function.comp_def, List.getD_cons_zero, List.getD_cons_succ]
    rw [ih]

/-- When every index below `parts.length` is present in the received map with
the matching fragment, the completion loop rebuilds the original payload. -/
theorem assemble_complete (parts : List (List Nat)) (M : List (Nat × List Nat))
    (h : ∀ i, i < parts.length → alGet i M = some (parts.getD i [])) :
    assemble M parts.length = parts.flatten := by
  rw [assemble_eq_flatten_filterMap,
    filterMap_eq_map_of_forall_some (fun i => alGet i M) (fun i => parts.getD i [])
      (List.range parts.length) (fun x hx => h x (List.mem_range.mp hx)),
    range_map_getD]

end AssembleLemmas

section Roundtrip

theorem processList_cons (r : FragmentReassembler) (now : Nat) (p : List Nat)
    (ps : List (List Nat)) :
    processList r now (p :: ps) =
      ((processList (process_packet r now p).1 now ps).1,
        (process_packet r now p).2 :: (processList (process_packet r now p).1 now ps).2) := rfl

/-- Auxiliary invariant for the reassembly round-trip: with a single in-flight
buffer for message `m` holding exactly the fragments whose indices are not in
`order`, delivering the remaining indices completes exactly on the last packet
and yields the original payload. -/
theorem roundtrip_aux (m s : Nat) (parts : List (List Nat))
    (hm : m < 4294967296) (hs : s < 4294967296) (hL : parts.length < 65536) :
    ∀ (order : List Nat) (M : List (Nat × List Nat)) (tf0 ts0 t0 now : Nat),
      order ≠ [] → order.Nodup → (∀ i ∈ order, i < parts.length) →
      (∀ i, i < parts.length → i ∉ order → alGet i M = some (parts.getD i [])) →
      (∀ i ∈ order, alGet i M = none) →
      M.length + order.length = parts.length →
      processList ⟨[(m, ⟨tf0, ts0, M, t0⟩)]⟩ now
          (order.map (fun i => mkPacket m i parts.length s (parts.getD i []))) =
        (⟨[]⟩, List.replicate (order.length - 1) none ++ [some parts.flatten]) := by
  intro order
  induction order with
  | nil => intro M tf0 ts0 t0 now hne; exact absurd rfl hne
  | cons j rest ih =>
    intro M tf0 ts0 t0 now _ hnd hlt hget hnotin hlen
    have hjlt : j < parts.length := hlt j (by simp)
    have hjM : alGet j M = none := hnotin j (by simp)
    have hj65536 : j < 65536 := Nat.lt_trans hjlt hL
    have hjrest : j ∉ rest := (List.nodup_cons.mp hnd).1
    have hrestnd : rest.Nodup := (List.nodup_cons.mp hnd).2
    have hlen' : (alInsert j (parts.getD j []) M).length = M.length + 1 :=
      length_alInsert_of_get_none j _ M hjM
    rw [List.map_cons, processList_cons]
    cases rest with
    | nil =>
      have hcomplete : (alInsert j (parts.getD j []) M).length = parts.length := by
        rw [hlen']
        simp at hlen
        omega
      have hall : ∀ i, i < parts.length →
          alGet i (alInsert j (parts.getD j []) M) = some (parts.getD i []) := by
        intro i hi
        by_cases hij : i = j
        · rw [hij]
          exact alGet_insert_self j _ M
        · rw [alGet_insert_ne j i _ M hij]
          exact hget i hi (by simp [hij])
      have hstep : process_packet ⟨[(m, ⟨tf0, ts0, M, t0⟩)]⟩ now
          (mkPacket m j parts.length s (parts.getD j [])) =
          (⟨[]⟩, some parts.flatten) := by
        rw [process_packet_mkPacket _ now m j parts.length s _ hm hj65536 hL hs]
        have hb : alGet m [(m, (⟨tf0, ts0, M, t0⟩ : FragmentBuffer))] =
            some ⟨tf0, ts0, M, t0⟩ := by simp [alGet]
        rw [hb]
        dsimp only
        rw [if_pos hcomplete]
        rw [assemble_complete parts _ hall]
        simp [alRemove]
      rw [hstep]
      simp [processList]
    | cons j2 rest2 =>
      have hnotfull : ¬((alInsert j (parts.getD j []) M).length = parts.length) := by
        rw [hlen']
        simp at hlen
        omega
      have hstep : process_packet ⟨[(m, ⟨tf0, ts0, M, t0⟩)]⟩ now
          (mkPacket m j parts.length s (parts.getD j [])) =
          (⟨[(m, ⟨tf0, ts0, alInsert j (parts.getD j []) M, t0⟩)]⟩, none) := by
        rw [process_packet_mkPacket _ now m j parts.length s _ hm hj65536 hL hs]
        have hb : alGet m [(m, (⟨tf0, ts0, M, t0⟩ : FragmentBuffer))] =
            some ⟨tf0, ts0, M, t0⟩ := by simp [alGet]
        rw [hb]
        dsimp only
        rw [if_neg hnotfull]
        simp [alInsert]
      rw [hstep]
      have hrec := ih (alInsert j (parts.getD j []) M) tf0 ts0 t0 now
        (by simp)
        hrestnd
        (fun i hi => hlt i (by simp [hi]))
        (by
          intro i hi hirest
          by_cases hij : i = j
          · rw [hij]
            exact alGet_insert_self j _ M
          · rw [alGet_insert_ne j i _ M hij]
            exact hget i hi (by simp [hij, hirest]))
        (by
          intro i hi
          have hij : i ≠ j := fun hh => hjrest (hh ▸ hi)
          rw [alGet_insert_ne j i _ M hij]
          exact hnotin i (by simp [hi]))
        (by
          rw [hlen']
          simp at hlen ⊢
          omega)
      have e1 : (j :: j2 :: rest2).length - 1 = rest2.length + 1 := by simp
      have e2 : (j2 :: rest2).length - 1 = rest2.length := by simp
      rw [hrec, e2, e1, List.replicate_succ]
      rfl

/-- C1 helper: the very first fragment creates the buffer; subsequent behavior
is settled by `roundtrip_aux`. -/
theorem c1_first_step (m s now j L : Nat) (frag : List Nat)
    (hm : m < 4294967296) (hj : j < 65536) (hL : L < 65536) (hs : s < 4294967296) :
    process_packet ⟨[]⟩ now (mkPacket m j L s frag) =
      (if 1 = L then (⟨[]⟩, some (assemble [(j, frag)] L))
       else (⟨[(m, ⟨L, s, [(j, frag)], now⟩)]⟩, none)) := by
  rw [process_packet_mkPacket _ now m j L s _ hm hj hL hs]
  simp only [alGet]
  by_cases h1 : 1 = L
  · rw [if_pos h1, if_pos (by simp [alInsert]; omega)]
    simp [alInsert, alRemove]
  · rw [if_neg h1, if_neg (by simp [alInsert]; omega)]
    simp [alInsert]

/-- C1: Reassembly round-trip. Split any payload into `N ≥ 1` consecutive
slices `parts` (`parts.flatten` is the original payload), frame each slice `i`
with a correct header (magic, one shared `message_id`, `fragment_index i`,
`total_fragments N`, `total_size`), and feed the `N` packets to a fresh
reassembler in an arbitrary permutation `order` of `0..N-1`. Every call but
the last returns `none`, and the last returns exactly the original payload. -/
theorem c1_reassembly_roundtrip (m now : Nat) (parts : List (List Nat)) (order : List Nat)
    (hm : m < 4294967296) (hsize : parts.flatten.length < 4294967296)
    (hL1 : 1 ≤ parts.length) (hL2 : parts.length < 65536)
    (hperm : order.Perm (List.range parts.length)) :
    processList ⟨[]⟩ now
        (order.map (fun i =>
          mkPacket m i parts.length parts.flatten.length (parts.getD i []))) =
      (⟨[]⟩, List.replicate (parts.length - 1) none ++ [some parts.flatten]) := by
  have hlen : order.length = parts.length := by
    have := hperm.length_eq
    simpa using this
  have hnd : order.Nodup := hperm.symm.nodup (List.nodup_range parts.length)
  have hmemall : ∀ i ∈ order, i < parts.length := fun i hi =>
    List.mem_range.mp (hperm.subset hi)
  have hmem_iff : ∀ i, i < parts.length → i ∈ order := fun i hi =>
    hperm.mem_iff.mpr (List.mem_range.mpr hi)
  cases order with
  | nil =>
    simp at hlen
    omega
  | cons j rest =>
    have hj : j < parts.length := hmemall j (by simp)
    have hj6 : j < 65536 := Nat.lt_trans hj hL2
    rw [List.map_cons, processList_cons,
      c1_first_step m parts.flatten.length now j parts.length (parts.getD j [])
        hm hj6 hL2 hsize]
    by_cases h1 : 1 = parts.length
    · have hrest : rest = [] := by
        have hl : rest.length + 1 = parts.length := by simpa using hlen
        have : rest.length = 0 := by omega
        exact List.length_eq_zero.mp this
      have hj0 : j = 0 := by omega
      subst hrest
      subst hj0
      rw [if_pos h1]
      have hassemble : assemble [(0, parts.getD 0 [])] parts.length = parts.flatten := by
        apply assemble_complete
        intro i hi
        have hi0 : i = 0 := by omega
        subst hi0
        simp [alGet]
      rw [hassemble]
      rw [show parts.length - 1 = 0 from by omega]
      simp [processList]
    · rw [if_neg h1]
      have hrestne : rest ≠ [] := by
        intro he
        subst he
        simp at hlen
        omega
      have hjrest : j ∉ rest := (List.nodup_cons.mp hnd).1
      have hrec := roundtrip_aux m parts.flatten.length parts hm hsize hL2
        rest [(j, parts.getD j [])] parts.length parts.flatten.length now now hrestne
        (List.nodup_cons.mp hnd).2
        (fun i hi => hmemall i (by simp [hi]))
        (by
          intro i hi hirest
          have hmem : i ∈ j :: rest := hmem_iff i hi
          have hij : i = j := by
            rcases List.mem_cons.mp hmem with h | h
            · exact h
            · exact absurd h hirest
          subst hij
          simp [alGet])
        (by
          intro i hi
          have hij : ¬(j = i) := fun hh => hjrest (hh ▸ hi)
          simp [alGet, hij])
        (by
          simp at hlen ⊢
          omega)
      rw [hrec]
      have e1 : parts.length - 1 = rest.length := by
        simp at hlen
        omega
      have e2 : rest.length = (rest.length - 1) + 1 := by
        have : rest.length ≠ 0 := fun hh => hrestne (List.length_eq_zero.mp hh)
        omega
      rw [e1, e2, List.replicate_succ]
      rfl

/-- Witness for C1 at a concrete input: payload `[1,2,3]` split as
`[[1,2],[3]]`, delivered in the order `[1, 0]`. -/
theorem c1_reassembly_roundtrip_witness :
    processList ⟨[]⟩ 0
        (([1, 0] : List Nat).map (fun i =>
          mkPacket 7 i ([[1, 2], [3]] : List (List Nat)).length
            ([[1, 2], [3]] : List (List Nat)).flatten.length
            (([[1, 2], [3]] : List (List Nat)).getD i []))) =
      (⟨[]⟩, List.replicate (([[1, 2], [3]] : List (List Nat)).length - 1) none ++
        [some ([[1, 2], [3]] : List (List Nat)).flatten]) :=
  c1_reassembly_roundtrip 7 0 [[1, 2], [3]] [1, 0] (by decide) (by decide) (by decide)
    (by decide) (by decide)

end Roundtrip

/-- C9: a fragment whose index is at or beyond its header's `total_fragments`
is still stored and counted toward completion. Delivering only indices 5 and 6
for a message declaring `total_fragments = 2` completes the message, returns
the empty payload (both stored fragments' bytes are omitted, since the
concatenation loop only reads indices `0` and `1`), and removes the buffer. -/
theorem c9_out_of_range_indices_complete :
    processList ⟨[]⟩ 0 [mkPacket 1 5 2 0 [9], mkPacket 1 6 2 0 [10]] =
      (⟨[]⟩, [none, some []]) := by decide

section FragmentedShape

/-- The `message_id` field parsed by `process_packet` from a fragmented packet. -/
def message_id_of (data : List Nat) : Nat :=
  leU32 (data.getD 4 0) (data.getD 5 0) (data.getD 6 0) (data.getD 7 0)

/-- The `fragment_index` field parsed by `process_packet`. -/
def fragment_index_of (data : List Nat) : Nat :=
  leU16 (data.getD 8 0) (data.getD 9 0)

/-- The `total_fragments` field parsed by `process_packet`. -/
def total_fragments_of (data : List Nat) : Nat :=
  leU16 (data.getD 10 0) (data.getD 11 0)

/-- The `total_size` field parsed by `process_packet`. -/
def total_size_of (data : List Nat) : Nat :=
  leU32 (data.getD 12 0) (data.getD 13 0) (data.getD 14 0) (data.getD 15 0)

/-- The buffer `process_packet` works on: the existing entry for the packet's
message id, or the freshly created one (`entry().or_insert_with(...)`). -/
def buffer_for (r : FragmentReassembler) (now : Nat) (data : List Nat) : FragmentBuffer :=
  match alGet (message_id_of data) r.buffers with
  | some b => b
  | none =>
      { total_fragments := total_fragments_of data
        total_size := total_size_of data
        received := []
        created_at := now }

/-- The received map after `process_packet` stores the incoming fragment. -/
def received_after (r : FragmentReassembler) (now : Nat) (data : List Nat) :
    List (Nat × List Nat) :=
  alInsert (fragment_index_of data) (data.drop HEADER_SIZE) (buffer_for r now data).received

/-- Unfolding of `process_packet` on the fragmented branch, phrased through the
named header-field projections. -/
theorem process_packet_fragmented (r : FragmentReassembler) (now : Nat) (data : List Nat)
    (hc1 : HEADER_SIZE ≤ data.length) (hc2 : data.take 4 = MAGIC) :
    process_packet r now data =
      if (received_after r now data).length = total_fragments_of data then
        (⟨alRemove (message_id_of data) r.buffers⟩,
          some (assemble (received_after r now data) (total_fragments_of data)))
      else
        (⟨alInsert (message_id_of data)
            { buffer_for r now data with received := received_after r now data } r.buffers⟩,
          none) := by
  rw [process_packet, if_pos (And.intro hc1 hc2)]
  rfl

end FragmentedShape

/-- C3: no double emission per buffer. If the reassembler's buffer keys are
duplicate-free they stay duplicate-free across `process_packet` and across the
cleanup sweep (at most one buffer per message identifier at any time), and
whenever a call on a fragmented packet returns a reassembled payload, the
resulting state holds no buffer for that packet's message identifier — the
buffer is removed in the very call that emits it. -/
theorem c3_no_double_emission (r : FragmentReassembler) (now : Nat) (data : List Nat)
    (hnd : (r.buffers.map Prod.fst).Nodup) :
    ((process_packet r now data).1.buffers.map Prod.fst).Nodup ∧
    (((cleanup_old r now).buffers.map Prod.fst).Nodup) ∧
    (∀ out, HEADER_SIZE ≤ data.length → data.take 4 = MAGIC →
      (process_packet r now data).2 = some out →
      alGet (message_id_of data) (process_packet r now data).1.buffers = none) := by
  refine ⟨?_, ?_, ?_⟩
  · by_cases hc : HEADER_SIZE ≤ data.length ∧ data.take 4 = MAGIC
    · rw [process_packet_fragmented r now data hc.1 hc.2]
      by_cases hfull : (received_after r now data).length = total_fragments_of data
      · rw [if_pos hfull]
        exact nodup_keys_alRemove _ _ hnd
      · rw [if_neg hfull]
        exact nodup_keys_alInsert _ _ _ hnd
    · rw [process_packet, if_neg hc]
      exact hnd
  · exact List.Nodup.sublist ((List.filter_sublist _).map Prod.fst) hnd
  · intro out h1 h2 hout
    rw [process_packet_fragmented r now data h1 h2] at hout ⊢
    by_cases hfull : (received_after r now data).length = total_fragments_of data
    · rw [if_pos hfull]
      exact alGet_remove_self _ _
    · rw [if_neg hfull] at hout
      simp at hout

/-- Witness for C3 at a concrete input: a fragmented single-fragment packet on
the empty reassembler. -/
theorem c3_no_double_emission_witness :
    alGet (message_id_of (mkPacket 5 0 1 2 [9]))
        (process_packet ⟨[]⟩ 0 (mkPacket 5 0 1 2 [9])).1.buffers = none :=
  (c3_no_double_emission ⟨[]⟩ 0 (mkPacket 5 0 1 2 [9]) (by decide)).2.2
    (assemble (received_after ⟨[]⟩ 0 (mkPacket 5 0 1 2 [9]))
      (total_fragments_of (mkPacket 5 0 1 2 [9])))
    (by decide) (by decide) (by decide)

/-- C4: duplicate-fragment idempotence. Re-delivering fragment index `i` of an
incomplete buffer overwrites the stored bytes for `i` (last write wins),
leaves the received-fragment count unchanged, returns no payload, and — when
the re-delivered content is identical to what is stored — leaves the whole
reassembler state unchanged, so the eventual reconstructed output is unchanged
and no second emission can arise from the re-delivery. -/
theorem c4_duplicate_fragment_idempotence (r : FragmentReassembler) (now m i t s : Nat)
    (f old : List Nat) (b : FragmentBuffer)
    (hm : m < 4294967296) (hi : i < 65536) (ht : t < 65536) (hs : s < 4294967296)
    (hbuf : alGet m r.buffers = some b)
    (hheld : alGet i b.received = some old)
    (hincomp : b.received.length ≠ t) :
    process_packet r now (mkPacket m i t s f) =
      (⟨alInsert m { b with received := alInsert i f b.received } r.buffers⟩, none) ∧
    alGet i (alInsert i f b.received) = some f ∧
    (alInsert i f b.received).length = b.received.length ∧
    (f = old → process_packet r now (mkPacket m i t s f) = (r, none)) := by
  have hlen : (alInsert i f b.received).length = b.received.length :=
    length_alInsert_of_get_some i f old b.received hheld
  have hstep : process_packet r now (mkPacket m i t s f) =
      (⟨alInsert m { b with received := alInsert i f b.received } r.buffers⟩, none) := by
    rw [process_packet_mkPacket r now m i t s f hm hi ht hs]
    rw [hbuf]
    dsimp only
    rw [if_neg (by rw [hlen]; exact hincomp)]
  refine ⟨hstep, alGet_insert_self i f b.received, hlen, ?_⟩
  intro hfold
  subst hfold
  rw [hstep, alInsert_of_get_self i f b.received hheld]
  rw [show { b with received := b.received } = b from rfl]
  rw [alInsert_of_get_self m b r.buffers hbuf]

/-- Witness for C4 at a concrete input: fragment 0 of message 1 re-delivered
with identical bytes while the buffer still waits for fragment 1. -/
theorem c4_duplicate_fragment_idempotence_witness :
    process_packet ⟨[(1, ⟨2, 4, [(0, [7])], 0⟩)]⟩ 0 (mkPacket 1 0 2 4 [7]) =
      (⟨[(1, ⟨2, 4, [(0, [7])], 0⟩)]⟩, none) :=
  (c4_duplicate_fragment_idempotence ⟨[(1, ⟨2, 4, [(0, [7])], 0⟩)]⟩ 0 1 0 2 4 [7] [7]
    ⟨2, 4, [(0, [7])], 0⟩ (by decide) (by decide) (by decide) (by decide)
    (by decide) (by decide) (by decide)).2.2.2 rfl

section Logs

/-- The log records emitted inside `FragmentReassembler::process_packet`:
the per-fragment `debug!` line (which displays `fragment_index + 1`,
`total_fragments` and the fragment's byte count) and the `info!` line emitted
on completion (reassembled byte count and fragment count). These are the only
logging statements in `process_packet`. -/
inductive LogLine where
  | fragmentDebug (message_id shown_index total_fragments frag_len : Nat)
  | reassembledInfo (byte_len total_fragments : Nat)
  deriving DecidableEq, Repr

/-- The list of log records `process_packet` emits for one packet, mirroring
the `debug!` and `info!` calls along the same branches as `process_packet`. -/
def process_packet_logs (r : FragmentReassembler) (now : Nat) (data : List Nat) :
    List LogLine :=
  if HEADER_SIZE ≤ data.length ∧ data.take 4 = MAGIC then
    let message_id := leU32 (data.getD 4 0) (data.getD 5 0) (data.getD 6 0) (data.getD 7 0)
    let fragment_index := leU16 (data.getD 8 0) (data.getD 9 0)
    let total_fragments := leU16 (data.getD 10 0) (data.getD 11 0)
    let fragment_data := data.drop HEADER_SIZE
    let b :=
      match alGet message_id r.buffers with
      | some b => b
      | none =>
          { total_fragments := total_fragments
            total_size := leU32 (data.getD 12 0) (data.getD 13 0) (data.getD 14 0) (data.getD 15 0)
            received := []
            created_at := now }
    let received' := alInsert fragment_index fragment_data b.received
    if received'.length = total_fragments then
      [LogLine.fragmentDebug message_id (fragment_index + 1) total_fragments fragment_data.length,
        LogLine.reassembledInfo (assemble received' total_fragments).length total_fragments]
    else
      [LogLine.fragmentDebug message_id (fragment_index + 1) total_fragments fragment_data.length]
  else
    []

/-- Evaluation of `process_packet_logs` on a well-formed fragment packet. -/
theorem process_packet_logs_mkPacket (r : FragmentReassembler) (now m i t s : Nat)
    (f : List Nat)
    (hm : m < 4294967296) (hi : i < 65536) (ht : t < 65536) (hs : s < 4294967296) :
    process_packet_logs r now (mkPacket m i t s f) =
      (let b :=
        match alGet m r.buffers with
        | some b => b
        | none => ⟨t, s, [], now⟩
       let received' := alInsert i f b.received
       if received'.length = t then
         [LogLine.fragmentDebug m (i + 1) t f.length,
           LogLine.reassembledInfo (assemble received' t).length t]
       else
         [LogLine.fragmentDebug m (i + 1) t f.length]) := by
  rw [process_packet_logs, if_pos (mkPacket_cond m i t s f)]
  rw [mkPacket_message_id m i t s f hm, mkPacket_fragment_index m i t s f hi,
    mkPacket_total_fragments m i t s f ht, mkPacket_total_size m i t s f hs,
    mkPacket_drop m i t s f]

end Logs

/-- C5 (amended): truncation instead of panic. When the incoming fragment
completes the count check (`received` size equals the packet's
`total_fragments`) but some index below `total_fragments` is absent from the
received map, `process_packet` still returns normally: the emitted payload is
the concatenation, in index order, of exactly the fragments that are present
(absent indices contribute nothing), the buffer is removed, and the only log
records emitted are the routine per-fragment debug line and the routine
completion line — no dedicated anomaly record exists. -/
theorem c5_truncated_completion (r : FragmentReassembler) (now m i t s : Nat)
    (f : List Nat) (b : FragmentBuffer)
    (hm : m < 4294967296) (hi : i < 65536) (ht : t < 65536) (hs : s < 4294967296)
    (hbuf : alGet m r.buffers = some b)
    (hfull : (alInsert i f b.received).length = t)
    (hmiss : ∃ j, j < t ∧ alGet j (alInsert i f b.received) = none) :
    process_packet r now (mkPacket m i t s f) =
      (⟨alRemove m r.buffers⟩,
        some (((List.range t).filterMap (fun k => alGet k (alInsert i f b.received))).flatten)) ∧
    process_packet_logs r now (mkPacket m i t s f) =
      [LogLine.fragmentDebug m (i + 1) t f.length,
        LogLine.reassembledInfo
          (((List.range t).filterMap (fun k => alGet k (alInsert i f b.received))).flatten).length
          t] := by
  constructor
  · rw [process_packet_mkPacket r now m i t s f hm hi ht hs]
    rw [hbuf]
    dsimp only
    rw [if_pos hfull, assemble_eq_flatten_filterMap]
  · rw [process_packet_logs_mkPacket r now m i t s f hm hi ht hs]
    rw [hbuf]
    dsimp only
    rw [if_pos hfull, assemble_eq_flatten_filterMap]

/-- Witness for C5's amended theorem at a concrete input: a buffer holding
only index 5 is completed by index 6 under `total_fragments = 2`; indices 0
and 1 are absent, so the returned payload is empty. -/
theorem c5_truncated_completion_witness :
    process_packet ⟨[(1, ⟨2, 9, [(5, [7])], 0⟩)]⟩ 0 (mkPacket 1 6 2 9 [8]) =
      (⟨alRemove 1 [(1, ⟨2, 9, [(5, [7])], 0⟩)]⟩,
        some (((List.range 2).filterMap
          (fun k => alGet k (alInsert 6 [8] [(5, [7])]))).flatten)) :=
  (c5_truncated_completion ⟨[(1, ⟨2, 9, [(5, [7])], 0⟩)]⟩ 0 1 6 2 9 [8]
    ⟨2, 9, [(5, [7])], 0⟩ (by decide) (by decide) (by decide) (by decide)
    (by decide) (by decide) ⟨0, by decide, by decide⟩).1

/-- C5 counterexample to the claim's "the anomaly is logged" clause: the
truncated (anomalous) completion emits exactly the routine per-fragment debug
record and the routine completion record, and the completion record
`reassembledInfo 0 2` is identical to the one emitted by a perfectly normal
reassembly of two empty fragments — nothing in the emitted records marks the
anomaly, because `process_packet` has no logging statement in its
missing-index branch. -/
theorem c5_no_anomaly_logged_counterexample :
    process_packet_logs ⟨[(1, ⟨2, 9, [(5, [7])], 0⟩)]⟩ 0 (mkPacket 1 6 2 9 [8]) =
      [LogLine.fragmentDebug 1 7 2 1, LogLine.reassembledInfo 0 2] ∧
    (process_packet ⟨[(1, ⟨2, 9, [(5, [7])], 0⟩)]⟩ 0 (mkPacket 1 6 2 9 [8])).2 = some [] ∧
    process_packet_logs ⟨[(1, ⟨2, 0, [(0, [])], 0⟩)]⟩ 0 (mkPacket 1 1 2 0 []) =
      [LogLine.fragmentDebug 1 2 2 0, LogLine.reassembledInfo 0 2] := by
  decide

/-- C8: TTL eviction. The cleanup sweep removes every buffer whose age
strictly exceeds the 10-second time-to-live (regardless of its completion
progress — the predicate never inspects the received map), keeps every buffer
younger than the time-to-live with identical contents, introduces no new
buffers, and never grows the buffer count. -/
theorem c8_ttl_eviction (r : FragmentReassembler) (now : Nat) :
    (∀ p ∈ r.buffers, 10 < now - p.2.created_at → p ∉ (cleanup_old r now).buffers) ∧
    (∀ p ∈ r.buffers, now - p.2.created_at < 10 → p ∈ (cleanup_old r now).buffers) ∧
    (∀ p ∈ (cleanup_old r now).buffers, p ∈ r.buffers ∧ now - p.2.created_at < 10) ∧
    (cleanup_old r now).buffers.length ≤ r.buffers.length := by
  refine ⟨?_, ?_, ?_, ?_⟩
  · intro p _ hage hmem
    simp [cleanup_old, List.mem_filter] at hmem
    omega
  · intro p hp hage
    simp [cleanup_old, List.mem_filter]
    exact ⟨hp, hage⟩
  · intro p hp
    simpa [cleanup_old, List.mem_filter] using hp
  · exact List.length_filter_le _ _

/-- Witness for C8 at a concrete input: with `now = 12`, a buffer created at
time 0 (age 12) is evicted while a buffer created at time 9 (age 3) is kept. -/
theorem c8_ttl_eviction_witness :
    (1, (⟨1, 0, [], 0⟩ : FragmentBuffer)) ∉
        (cleanup_old ⟨[(1, ⟨1, 0, [], 0⟩), (2, ⟨1, 0, [], 9⟩)]⟩ 12).buffers ∧
    (2, (⟨1, 0, [], 9⟩ : FragmentBuffer)) ∈
        (cleanup_old ⟨[(1, ⟨1, 0, [], 0⟩), (2, ⟨1, 0, [], 9⟩)]⟩ 12).buffers :=
  ⟨(c8_ttl_eviction ⟨[(1, ⟨1, 0, [], 0⟩), (2, ⟨1, 0, [], 9⟩)]⟩ 12).1 _ (by decide) (by decide),
    (c8_ttl_eviction ⟨[(1, ⟨1, 0, [], 0⟩), (2, ⟨1, 0, [], 9⟩)]⟩ 12).2.1 _ (by decide) (by decide)⟩

section StoredTotals

/-- Two buffers that agree on everything `process_packet` ever reads back:
the received map and the creation timestamp. The stored `total_fragments` and
`total_size` fields may differ arbitrarily. -/
def bufSim (b b' : FragmentBuffer) : Prop :=
  b.received = b'.received ∧ b.created_at = b'.created_at

/-- Pointwise `bufSim` between two reassembler buffer lists with equal keys. -/
def buffersSim : List (Nat × FragmentBuffer) → List (Nat × FragmentBuffer) → Prop :=
  List.Forall₂ (fun p q => p.1 = q.1 ∧ bufSim p.2 q.2)

theorem buffersSim_alGet {l l' : List (Nat × FragmentBuffer)} (h : buffersSim l l')
    (k : Nat) :
    (alGet k l = none ∧ alGet k l' = none) ∨
      ∃ b b', alGet k l = some b ∧ alGet k l' = some b' ∧ bufSim b b' := by
  induction h with
  | nil => exact Or.inl ⟨rfl, rfl⟩
  | @cons p q l₁ l₂ hpq _ ih =>
    by_cases hk : p.1 = k
    · refine Or.inr ⟨p.2, q.2, ?_, ?_, hpq.2⟩
      · simp [alGet, hk]
      · simp [alGet, hpq.1 ▸ hk]
    · have hk' : ¬(q.1 = k) := hpq.1 ▸ hk
      rcases ih with ⟨h1, h2⟩ | ⟨b, b', h1, h2, hbb⟩
      · exact Or.inl ⟨by simp [alGet, hk, h1], by simp [alGet, hk', h2]⟩
      · exact Or.inr ⟨b, b', by simp [alGet, hk, h1], by simp [alGet, hk', h2], hbb⟩

theorem buffersSim_alInsert {l l' : List (Nat × FragmentBuffer)} (h : buffersSim l l')
    (k : Nat) {b b' : FragmentBuffer} (hbb : bufSim b b') :
    buffersSim (alInsert k b l) (alInsert k b' l') := by
  induction h with
  | nil => exact List.Forall₂.cons ⟨rfl, hbb⟩ List.Forall₂.nil
  | @cons p q l₁ l₂ hpq hrest ih =>
    by_cases hk : p.1 = k
    · have hk' : q.1 = k := hpq.1 ▸ hk
      have e : alInsert k b (p :: l₁) = (k, b) :: l₁ := by simp [alInsert, hk]
      have e' : alInsert k b' (q :: l₂) = (k, b') :: l₂ := by simp [alInsert, hk']
      rw [e, e']
      exact List.Forall₂.cons ⟨rfl, hbb⟩ hrest
    · have hk' : ¬(q.1 = k) := hpq.1 ▸ hk
      have e : alInsert k b (p :: l₁) = p :: alInsert k b l₁ := by simp [alInsert, hk]
      have e' : alInsert k b' (q :: l₂) = q :: alInsert k b' l₂ := by simp [alInsert, hk']
      rw [e, e']
      exact List.Forall₂.cons hpq ih

theorem buffersSim_alRemove {l l' : List (Nat × FragmentBuffer)} (h : buffersSim l l')
    (k : Nat) : buffersSim (alRemove k l) (alRemove k l') := by
  induction h with
  | nil => exact List.Forall₂.nil
  | @cons p q l₁ l₂ hpq _ ih =>
    by_cases hk : p.1 = k
    · have hk' : q.1 = k := hpq.1 ▸ hk
      have e : alRemove k (p :: l₁) = alRemove k l₁ := by simp [alRemove, hk]
      have e' : alRemove k (q :: l₂) = alRemove k l₂ := by simp [alRemove, hk']
      rw [e, e']
      exact ih
    · have hk' : ¬(q.1 = k) := hpq.1 ▸ hk
      have e : alRemove k (p :: l₁) = p :: alRemove k l₁ := by simp [alRemove, hk]
      have e' : alRemove k (q :: l₂) = q :: alRemove k l₂ := by simp [alRemove, hk']
      rw [e, e']
      exact List.Forall₂.cons hpq ih

end StoredTotals

/-- C10: the `total_fragments` and `total_size` values stored in a
`FragmentBuffer` are never read after creation. Two reassembler states that
agree on keys, received maps and creation times — but differ arbitrarily in
the stored `total_fragments`/`total_size` fields — produce the identical
output on every packet and remain related afterwards; and on a buffer that
already exists, completion is judged exactly by comparing the updated received
map's size with the incoming (newest) packet's `total_fragments` header field,
with no reference to the stored fields. -/
theorem c10_stored_totals_never_read (r r' : FragmentReassembler) (now : Nat)
    (data : List Nat) (hsim : buffersSim r.buffers r'.buffers) :
    (process_packet r now data).2 = (process_packet r' now data).2 ∧
    buffersSim (process_packet r now data).1.buffers (process_packet r' now data).1.buffers ∧
    (∀ m i t s f b, m < 4294967296 → i < 65536 → t < 65536 → s < 4294967296 →
      alGet m r.buffers = some b →
      ((process_packet r now (mkPacket m i t s f)).2 ≠ none ↔
        (alInsert i f b.received).length = t)) := by
  have hthird : ∀ m i t s f b, m < 4294967296 → i < 65536 → t < 65536 → s < 4294967296 →
      alGet m r.buffers = some b →
      ((process_packet r now (mkPacket m i t s f)).2 ≠ none ↔
        (alInsert i f b.received).length = t) := by
    intro m i t s f b hm hi ht hs hbuf
    rw [process_packet_mkPacket r now m i t s f hm hi ht hs]
    rw [hbuf]
    dsimp only
    by_cases hfull : (alInsert i f b.received).length = t
    · rw [if_pos hfull]
      simp [hfull]
    · rw [if_neg hfull]
      simp [hfull]
  by_cases hc : HEADER_SIZE ≤ data.length ∧ data.take 4 = MAGIC
  · have hbit : (buffer_for r now data).received = (buffer_for r' now data).received ∧
        (buffer_for r now data).created_at = (buffer_for r' now data).created_at := by
      rcases buffersSim_alGet hsim (message_id_of data) with ⟨h1, h2⟩ | ⟨b, b', h1, h2, hbb⟩
      · constructor
        · rw [buffer_for, buffer_for, h1, h2]
        · rw [buffer_for, buffer_for, h1, h2]
      · constructor
        · rw [buffer_for, buffer_for, h1, h2]
          exact hbb.1
        · rw [buffer_for, buffer_for, h1, h2]
          exact hbb.2
    have hrecv : received_after r now data = received_after r' now data := by
      rw [received_after, received_after, hbit.1]
    rw [process_packet_fragmented r now data hc.1 hc.2,
      process_packet_fragmented r' now data hc.1 hc.2, ← hrecv]
    by_cases hfull : (received_after r now data).length = total_fragments_of data
    · rw [if_pos hfull, if_pos hfull]
      exact ⟨rfl, buffersSim_alRemove hsim _, hthird⟩
    · rw [if_neg hfull, if_neg hfull]
      refine ⟨rfl, ?_, hthird⟩
      exact buffersSim_alInsert hsim _ ⟨rfl, hbit.2⟩
  · rw [process_packet, if_neg hc, process_packet, if_neg hc]
    exact ⟨rfl, hsim, hthird⟩

/-- Witness for C10 at a concrete input: two states whose only difference is
the stored `total_fragments`/`total_size` fields (99/99 against 2/0) behave
identically on the next packet. -/
theorem c10_stored_totals_never_read_witness :
    (process_packet ⟨[(1, ⟨99, 99, [(0, [7])], 5⟩)]⟩ 0 (mkPacket 1 1 2 0 [8])).2 =
      (process_packet ⟨[(1, ⟨2, 0, [(0, [7])], 5⟩)]⟩ 0 (mkPacket 1 1 2 0 [8])).2 :=
  (c10_stored_totals_never_read ⟨[(1, ⟨99, 99, [(0, [7])], 5⟩)]⟩
    ⟨[(1, ⟨2, 0, [(0, [7])], 5⟩)]⟩ 0 (mkPacket 1 1 2 0 [8])
    (List.Forall₂.cons ⟨rfl, rfl, rfl⟩ List.Forall₂.nil)).1

section Scanner

/-- A Solana public key, modelled as an abstract identity. -/
structure Pubkey where
  key : Nat
  deriving DecidableEq, Repr

/-- Display form of a key (`Pubkey::to_string` in the source); injective, and
never the empty string, like the base58 rendering it models. -/
def pubkeyToString (p : Pubkey) : String := toString p.key

/-- A compiled instruction: program-id index and account indices into the
transaction's static account list, plus opaque data bytes. -/
structure CompiledInstruction where
  program_id_index : Nat
  accounts : List Nat
  data : List Nat
  deriving DecidableEq, Repr

/-- A transaction message: static account keys and instructions
(`tx.message.static_account_keys()` / `tx.message.instructions()`). -/
structure Message where
  static_account_keys : List Pubkey
  instructions : List CompiledInstruction
  deriving DecidableEq, Repr

structure Transaction where
  message : Message
  deriving DecidableEq, Repr

structure Entry where
  transactions : List Transaction
  deriving DecidableEq, Repr

/-- The three identity strings logged for one detected create instruction. -/
structure DetectionEvent where
  mint : String
  bonding_curve : String
  creator : String
  deriving DecidableEq, Repr

/-- The per-instruction body of the scanning loop in `process_entries`:
`none` models `continue` (skip), `some ev` models one counted detection with
its three logged fields. Out-of-range account indices are filtered out by
`filter_map`, and positions 0/2/7 beyond the resolved list's length become
the empty string via `unwrap_or_default`. -/
def scanInstruction (accounts : List Pubkey) (pid : Pubkey) (ix : CompiledInstruction) :
    Option DetectionEvent :=
  if hp : ix.program_id_index < accounts.length then
    if accounts.get ⟨ix.program_id_index, hp⟩ = pid then
      if ix.data.length < 8 then none
      else if ix.data.take 8 = CREATE_DISC then
        let ix_accounts := ix.accounts.filterMap (fun idx => accounts.get? idx)
        some
          { mint := ((ix_accounts.get? 0).map pubkeyToString).getD ""
            bonding_curve := ((ix_accounts.get? 2).map pubkeyToString).getD ""
            creator := ((ix_accounts.get? 7).map pubkeyToString).getD "" }
      else none
    else none
  else none

/-- Embedding of `process_entries`. The bincode deserialization of
`Vec<Entry>` is an external library call, so it is taken as a parameter
`dec`; `dec data = none` models `bincode::deserialize` returning `Err`, in
which case the function logs and returns 0 detections. On success it scans
every instruction of every transaction of every entry in order, returning the
count of CREATE matches (`creates_found`) together with the logged detection
events. -/
def process_entries (dec : List Nat → Option (List Entry)) (data : List Nat)
    (pid : Pubkey) : Nat × List DetectionEvent :=
  match dec data with
  | none => (0, [])
  | some entries =>
    let evs := entries.flatMap (fun e =>
      e.transactions.flatMap (fun tx =>
        tx.message.instructions.filterMap
          (scanInstruction tx.message.static_account_keys pid)))
    (evs.length, evs)

end Scanner

/-- C6: decoder resilience. `process_entries` is a total function (no input
can make it panic), and whenever deserialization fails it returns 0
detections and no events, so the caller's ingestion loop simply adds 0 and
continues — a decode failure is never propagated as an error. -/
theorem c6_decoder_resilience (dec : List Nat → Option (List Entry))
    (data : List Nat) (pid : Pubkey) (h : dec data = none) :
    process_entries dec data pid = (0, []) := by
  rw [process_entries, h]

/-- Witness for C6: the always-failing decoder on an arbitrary byte string. -/
theorem c6_decoder_resilience_witness :
    process_entries (fun _ => none) [0, 1, 2, 255] ⟨0⟩ = (0, []) :=
  c6_decoder_resilience (fun _ => none) [0, 1, 2, 255] ⟨0⟩ rfl

/-- C2: canonical detection. When deserialization yields a single entry whose
single transaction carries one instruction whose program-id index resolves to
the target program id, whose data begins with the CREATE discriminator
`[24,30,200,40,5,28,7,119]`, and whose account-index list resolves (after
filtering out-of-range indices) to at least 8 identities, `process_entries`
counts exactly one detection, with mint = position 0, bonding curve =
position 2 and creator = position 7 of the resolved list. Moreover (second
conjunct) an otherwise-matching instruction whose resolved list is shorter
than 8 still yields a detection, with the creator field the empty placeholder
rather than a failure. -/
theorem c2_canonical_detection
    (dec : List Nat → Option (List Entry)) (bytes : List Nat) (pid : Pubkey)
    (accounts : List Pubkey) (ix : CompiledInstruction)
    (hdec : dec bytes = some [⟨[⟨⟨accounts, [ix]⟩⟩]⟩])
    (hp : ix.program_id_index < accounts.length)
    (hpid : accounts.get ⟨ix.program_id_index, hp⟩ = pid)
    (hlen : 8 ≤ ix.data.length)
    (hdisc : ix.data.take 8 = CREATE_DISC)
    (hres : 8 ≤ (ix.accounts.filterMap (fun idx => accounts.get? idx)).length) :
    process_entries dec bytes pid =
      (1,
        [{ mint := pubkeyToString
              ((ix.accounts.filterMap (fun idx => accounts.get? idx)).get ⟨0, by omega⟩)
           bonding_curve := pubkeyToString
              ((ix.accounts.filterMap (fun idx => accounts.get? idx)).get ⟨2, by omega⟩)
           creator := pubkeyToString
              ((ix.accounts.filterMap (fun idx => accounts.get? idx)).get ⟨7, by omega⟩) }]) ∧
    (∀ (accounts₂ : List Pubkey) (ix₂ : CompiledInstruction)
        (hp₂ : ix₂.program_id_index < accounts₂.length),
      accounts₂.get ⟨ix₂.program_id_index, hp₂⟩ = pid →
      8 ≤ ix₂.data.length →
      ix₂.data.take 8 = CREATE_DISC →
      (ix₂.accounts.filterMap (fun idx => accounts₂.get? idx)).length ≤ 7 →
      ∃ ev, scanInstruction accounts₂ pid ix₂ = some ev ∧ ev.creator = "") := by
  constructor
  · have hscan : scanInstruction accounts pid ix =
        some
          { mint := pubkeyToString
              ((ix.accounts.filterMap (fun idx => accounts.get? idx)).get ⟨0, by omega⟩)
            bonding_curve := pubkeyToString
              ((ix.accounts.filterMap (fun idx => accounts.get? idx)).get ⟨2, by omega⟩)
            creator := pubkeyToString
              ((ix.accounts.filterMap (fun idx => accounts.get? idx)).get ⟨7, by omega⟩) } := by
      rw [scanInstruction, dif_pos hp, if_pos hpid, if_neg (by omega), if_pos hdisc]
      dsimp only
      rw [List.get?_eq_get (show 0 < (ix.accounts.filterMap
        (fun idx => accounts.get? idx)).length by omega)]
      rw [List.get?_eq_get (show 2 < (ix.accounts.filterMap
        (fun idx => accounts.get? idx)).length by omega)]
      rw [List.get?_eq_get (show 7 < (ix.accounts.filterMap
        (fun idx => accounts.get? idx)).length by omega)]
      rfl
    rw [process_entries, hdec]
    dsimp only
    rw [List.flatMap_cons, List.flatMap_nil, List.flatMap_cons, List.flatMap_nil,
      List.filterMap_cons, hscan]
    rfl
  · intro accounts₂ ix₂ hp₂ hpid₂ hlen₂ hdisc₂ hshort
    rw [scanInstruction, dif_pos hp₂, if_pos hpid₂, if_neg (by omega), if_pos hdisc₂]
    refine ⟨_, rfl, ?_⟩
    show (((ix₂.accounts.filterMap (fun idx => accounts₂.get? idx)).get? 7).map
      pubkeyToString).getD "" = ""
    rw [List.get?_eq_none.mpr (by omega)]
    rfl

/-- Witness for C2: one transaction, eight accounts `0..7`, the instruction's
data is exactly the discriminator, and all eight indices resolve. -/
theorem c2_canonical_detection_witness :
    process_entries
        (fun _ => some [⟨[⟨⟨[⟨0⟩, ⟨1⟩, ⟨2⟩, ⟨3⟩, ⟨4⟩, ⟨5⟩, ⟨6⟩, ⟨7⟩],
          [⟨0, [0, 1, 2, 3, 4, 5, 6, 7], [24, 30, 200, 40, 5, 28, 7, 119]⟩]⟩⟩]⟩])
        [] ⟨0⟩ =
      (1, [{ mint := "0", bonding_curve := "2", creator := "7" }]) := by
  have h := (c2_canonical_detection
    (fun _ => some [⟨[⟨⟨[⟨0⟩, ⟨1⟩, ⟨2⟩, ⟨3⟩, ⟨4⟩, ⟨5⟩, ⟨6⟩, ⟨7⟩],
      [⟨0, [0, 1, 2, 3, 4, 5, 6, 7], [24, 30, 200, 40, 5, 28, 7, 119]⟩]⟩⟩]⟩])
    [] ⟨0⟩ [⟨0⟩, ⟨1⟩, ⟨2⟩, ⟨3⟩, ⟨4⟩, ⟨5⟩, ⟨6⟩, ⟨7⟩]
    ⟨0, [0, 1, 2, 3, 4, 5, 6, 7], [24, 30, 200, 40, 5, 28, 7, 119]⟩
    rfl (by decide) (by decide) (by decide) (by decide) (by decide)).1
  rw [h]
  rfl

section Stats

/-- The three running counters of the main loop together with the time of the
last stats flush (`packets_received`, `bytes_received`, `creates_total`,
`last_stats` in `main`). -/
structure StatsState where
  packets_received : Nat
  bytes_received : Nat
  creates_total : Nat
  last_stats : Nat
  deriving DecidableEq, Repr

/-- The contents of one periodic stats log line. -/
structure StatsSummary where
  packets : Nat
  bytes : Nat
  creates : Nat
  deriving DecidableEq, Repr

/-- One iteration of the stats bookkeeping in the main loop: the counters are
bumped for the received payload, then, if at least 15 seconds have elapsed
since `last_stats`, a summary is emitted, all three counters are reset to
zero and `last_stats` is set to the current time. -/
def stats_step (s : StatsState) (now len creates : Nat) :
    StatsState × Option StatsSummary :=
  let packets := s.packets_received + 1
  let bytes := s.bytes_received + len
  let creates_total := s.creates_total + creates
  if 15 ≤ now - s.last_stats then
    (⟨0, 0, 0, now⟩, some ⟨packets, bytes, creates_total⟩)
  else
    (⟨packets, bytes, creates_total, s.last_stats⟩, none)

/-- Run the stats bookkeeping over a list of `(now, len, creates)` events. -/
def stats_run (s : StatsState) :
    List (Nat × Nat × Nat) → StatsState × List (Option StatsSummary)
  | [] => (s, [])
  | e :: es =>
    let step := stats_step s e.1 e.2.1 e.2.2
    let rest := stats_run step.1 es
    (rest.1, step.2 :: rest.2)

/-- A maximally dense payload stream: one payload per second, at times
`1, 2, ..., T`, with arbitrary per-payload sizes and detection counts. -/
def unitStream (len cr : Nat → Nat) (T : Nat) : List (Nat × Nat × Nat) :=
  (List.range T).map (fun k => (k + 1, len (k + 1), cr (k + 1)))

theorem stats_run_append (s : StatsState) (l1 l2 : List (Nat × Nat × Nat)) :
    stats_run s (l1 ++ l2) =
      ((stats_run (stats_run s l1).1 l2).1,
        (stats_run s l1).2 ++ (stats_run (stats_run s l1).1 l2).2) := by
  induction l1 generalizing s with
  | nil => simp [stats_run]
  | cons e es ih => simp [stats_run, ih]

theorem stats_step_flush (s : StatsState) (now l c : Nat) (h : 15 ≤ now - s.last_stats) :
    stats_step s now l c =
      (⟨0, 0, 0, now⟩,
        some ⟨s.packets_received + 1, s.bytes_received + l, s.creates_total + c⟩) := by
  rw [stats_step, if_pos h]

theorem stats_step_skip (s : StatsState) (now l c : Nat) (h : ¬(15 ≤ now - s.last_stats)) :
    stats_step s now l c =
      (⟨s.packets_received + 1, s.bytes_received + l, s.creates_total + c, s.last_stats⟩,
        none) := by
  rw [stats_step, if_neg h]

theorem stats_cadence_aux (len cr : Nat → Nat) (T : Nat) :
    (stats_run ⟨0, 0, 0, 0⟩ (unitStream len cr T)).1.last_stats = 15 * (T / 15) ∧
    (stats_run ⟨0, 0, 0, 0⟩ (unitStream len cr T)).2.length = T ∧
    (∀ k, k < T →
      (((stats_run ⟨0, 0, 0, 0⟩ (unitStream len cr T)).2.getD k none).isSome
        ↔ (k + 1) % 15 = 0)) ∧
    ((stats_run ⟨0, 0, 0, 0⟩ (unitStream len cr T)).2.filterMap id).length = T / 15 := by
  induction T with
  | zero => simp [unitStream, stats_run]
  | succ T ih =>
    obtain ⟨ih1, ih2, ih3, ih4⟩ := ih
    have hsplit : unitStream len cr (T + 1) =
        unitStream len cr T ++ [(T + 1, len (T + 1), cr (T + 1))] := by
      rw [unitStream, unitStream, List.range_succ, List.map_append]
      rfl
    rw [hsplit, stats_run_append]
    by_cases hdvd : (T + 1) % 15 = 0
    · have hcond : 15 ≤ (T + 1) - (stats_run ⟨0, 0, 0, 0⟩
          (unitStream len cr T)).1.last_stats := by
        rw [ih1]
        omega
      have hstep := stats_step_flush (stats_run ⟨0, 0, 0, 0⟩ (unitStream len cr T)).1
        (T + 1) (len (T + 1)) (cr (T + 1)) hcond
      refine ⟨?_, ?_, ?_, ?_⟩
      · show (stats_run _ [((T : Nat) + 1, len (T + 1), cr (T + 1))]).1.last_stats = _
        rw [stats_run, stats_run]
        dsimp only
        rw [hstep]
        show (T : Nat) + 1 = 15 * ((T + 1) / 15)
        omega
      · simp [ih2, stats_run]
      · intro k hk
        dsimp only
        by_cases hkT : k < T
        · rw [List.getD_append _ _ _ _ (by rw [ih2]; exact hkT)]
          rw [show (k + 1) % 15 = 0 ↔ (k + 1) % 15 = 0 from Iff.rfl]
          exact ih3 k hkT
        · have hkeq : k = T := by omega
          subst hkeq
          rw [List.getD_append_right _ _ _ _ (by rw [ih2])]
          rw [ih2]
          rw [stats_run, stats_run]
          dsimp only
          rw [hstep]
          simp [hdvd]
      · rw [List.filterMap_append]
        rw [stats_run, stats_run]
        dsimp only
        rw [hstep]
        simp only [List.length_append, ih4]
        show T / 15 + 1 = (T + 1) / 15
        omega
    · have hcond : ¬(15 ≤ (T + 1) - (stats_run ⟨0, 0, 0, 0⟩
          (unitStream len cr T)).1.last_stats) := by
        rw [ih1]
        omega
      have hstep := stats_step_skip (stats_run ⟨0, 0, 0, 0⟩ (unitStream len cr T)).1
        (T + 1) (len (T + 1)) (cr (T + 1)) hcond
      refine ⟨?_, ?_, ?_, ?_⟩
      · show (stats_run _ [((T : Nat) + 1, len (T + 1), cr (T + 1))]).1.last_stats = _
        rw [stats_run, stats_run]
        dsimp only
        rw [hstep]
        dsimp only
        rw [ih1]
        omega
      · simp [ih2, stats_run]
      · intro k hk
        dsimp only
        by_cases hkT : k < T
        · rw [List.getD_append _ _ _ _ (by rw [ih2]; exact hkT)]
          exact ih3 k hkT
        · have hkeq : k = T := by omega
          subst hkeq
          rw [List.getD_append_right _ _ _ _ (by rw [ih2])]
          rw [ih2]
          rw [stats_run, stats_run]
          dsimp only
          rw [hstep]
          simp [hdvd]
      · rw [List.filterMap_append]
        rw [stats_run, stats_run]
        dsimp only
        rw [hstep]
        simp only [List.length_append, ih4]
        show T / 15 + 0 = (T + 1) / 15
        omega

end Stats

/-- C7: stats cadence. Over a continuous stream of payloads (one per second at
times `1..T`, starting with freshly zeroed counters and window start 0), a
summary is emitted at exactly the times that are multiples of the 15-second
interval — one summary per elapsed interval, `T / 15` in total — and (last
conjunct) whenever a step emits a summary, the resulting state has all three
counters zero and its window-start timestamp equal to the current time. -/
theorem c7_stats_cadence (len cr : Nat → Nat) (T : Nat) :
    ((stats_run ⟨0, 0, 0, 0⟩ (unitStream len cr T)).2.length = T) ∧
    (∀ k, k < T →
      (((stats_run ⟨0, 0, 0, 0⟩ (unitStream len cr T)).2.getD k none).isSome
        ↔ (k + 1) % 15 = 0)) ∧
    (((stats_run ⟨0, 0, 0, 0⟩ (unitStream len cr T)).2.filterMap id).length = T / 15) ∧
    (∀ (st : StatsState) (now l c : Nat) (out : StatsSummary) (st' : StatsState),
      stats_step st now l c = (st', some out) → st' = ⟨0, 0, 0, now⟩) := by
  obtain ⟨_, h2, h3, h4⟩ := stats_cadence_aux len cr T
  refine ⟨h2, h3, h4, ?_⟩
  intro st now l c out st' h
  by_cases hc : 15 ≤ now - st.last_stats
  · rw [stats_step_flush st now l c hc] at h
    injection h with h1 h2
    exact h1.symm
  · rw [stats_step_skip st now l c hc] at h
    injection h with h1 h2
    exact absurd h2 (by simp)

/-- Witness for C7: a 31-second dense stream of 100-byte payloads produces
exactly two summaries. -/
theorem c7_stats_cadence_witness :
    ((stats_run ⟨0, 0, 0, 0⟩
      (unitStream (fun _ => 100) (fun _ => 0) 31)).2.filterMap id).length = 31 / 15 :=
  (c7_stats_cadence (fun _ => 100) (fun _ => 0) 31).2.2.1

end UdpShreds
